import Mathlib

/-!
Shallow embedding of the RRT* global planner (src/src/rrtstar_planner.cpp)
and proofs about its specification.

Modelling conventions:
* `double` values are modelled by exact rationals (`ℚ`) where the code only
  performs field operations, and by real numbers (`ℝ`) where the code takes
  square roots and logarithms.  One exception is recorded explicitly: the
  literal `0.05` in `smoothPath` is modelled by the binary64 value it denotes
  in the compiled program, because the sample count of the Bezier loop
  depends on it (see `c05` below).
* The costmap is the external collaborator of §6 of the design document; it
  is modelled read-only through `worldToMap` / `cost`, following the
  nav2 `Costmap2D` semantics consumed by the planner.
* Stateful loops of `createPlan` become explicit state-passing functions;
  the unbounded goal-connection loop is modelled with explicit fuel.
-/

namespace RRTStar

open scoped Classical

set_option maxRecDepth 8000

/-- A planar point: model of a pair of `double` coordinates. -/
abbrev Point := ℚ × ℚ

/-- Model of the external costmap collaborator (design §6): origin, resolution,
grid extent and the per-cell cost function. -/
structure Costmap where
  originX : ℚ
  originY : ℚ
  resolution : ℚ
  sizeX : ℕ
  sizeY : ℕ
  cost : ℕ → ℕ → ℕ

/-- `nav2_costmap_2d::FREE_SPACE` is the cost value 0. -/
def FREE_SPACE : ℕ := 0

/-- Model of `Costmap2D::worldToMap`: fails for coordinates below the origin,
otherwise truncates `(w - origin)/resolution` to a cell index and checks the
grid bounds. -/
def worldToMap (cm : Costmap) (wx wy : ℚ) : Option (ℕ × ℕ) :=
  if wx < cm.originX ∨ wy < cm.originY then none
  else
    let mx := (⌊(wx - cm.originX) / cm.resolution⌋).toNat
    let my := (⌊(wy - cm.originY) / cm.resolution⌋).toNat
    if mx < cm.sizeX ∧ my < cm.sizeY then some (mx, my) else none

/-- Least natural number `n` with `m ≤ n ^ 2`; used to express
`ceil (sqrt q)` for integer `q` by rational arithmetic only. -/
def ceilSqrt (m : ℕ) : ℕ :=
  if Nat.sqrt m * Nat.sqrt m = m then Nat.sqrt m else Nat.sqrt m + 1

/-- The step count `ceil (hypot dx dy / resolution)` of the source, computed
from the squared length `sq = dx^2 + dy^2`.  Equals
`⌈Real.sqrt sq / res⌉₊` whenever `0 < res` (proved below). -/
def stepCount (sq res : ℚ) : ℕ :=
  if 0 < res then ceilSqrt ⌈sq / res ^ 2⌉₊ else 0

/-- The sampling loop body of `RRTStar::connectible`: walk `k` remaining
samples from `(x, y)`, advancing by `(xinc, yinc)`; fail on the first sample
that is out of bounds or not free. -/
def connectibleGo (cm : Costmap) (xinc yinc : ℚ) : ℕ → ℚ → ℚ → Bool
  | 0, _, _ => true
  | k + 1, x, y =>
    match worldToMap cm x y with
    | none => false
    | some (mx, my) =>
      if cm.cost mx my ≠ FREE_SPACE then false
      else connectibleGo cm xinc yinc k (x + xinc) (y + yinc)

/-- Model of `RRTStar::connectible`: discretize the segment from `s` to `e`
into `ceil (distance / res)` steps and test every sample starting at `s`. -/
def connectible (cm : Costmap) (res : ℚ) (s e : Point) : Bool :=
  let steps := stepCount ((e.1 - s.1) ^ 2 + (e.2 - s.2) ^ 2) res
  if 0 < steps then
    let xinc := (e.1 - s.1) / (steps : ℚ)
    let yinc := (e.2 - s.2) / (steps : ℚ)
    connectibleGo cm xinc yinc steps s.1 s.2
  else true

/-- The `i`-th sample point visited by `connectible` on the segment from `s`
to `e` (the loop variable after `i` increments). -/
def samplePoint (s e : Point) (steps : ℕ) (i : ℕ) : Point :=
  (s.1 + i * ((e.1 - s.1) / (steps : ℚ)), s.2 + i * ((e.2 - s.2) / (steps : ℚ)))

/-- A point maps to a valid grid cell and that cell is free space. -/
def sampleFree (cm : Costmap) (p : Point) : Prop :=
  ∃ mx my, worldToMap cm p.1 p.2 = some (mx, my) ∧ cm.cost mx my = FREE_SPACE

/-- Model of `RRTStar::computeBezierPoint`: the standard cubic Bernstein
blend of the four control points, evaluated at parameter `t`. -/
def computeBezierPoint (P0 P1 P2 P3 : Point) (t : ℚ) : Point :=
  ((1 - t) ^ 3 * P0.1 + 3 * (1 - t) ^ 2 * t * P1.1 +
      3 * (1 - t) * t ^ 2 * P2.1 + t ^ 3 * P3.1,
    (1 - t) ^ 3 * P0.2 + 3 * (1 - t) ^ 2 * t * P1.2 +
      3 * (1 - t) * t ^ 2 * P2.2 + t ^ 3 * P3.2)

/-- The binary64 floating-point value denoted by the literal `0.05` in the
source (`3602879701896397 / 2 ^ 56`).  It is slightly larger than `1/20`,
which is what makes the Bezier sampling loop stop after 20 samples. -/
def c05 : ℚ := 3602879701896397 / 72057594037927936

/-- The `for (double t = 0; t <= 1.0; t += 0.05)` loop of `smoothPath`,
with explicit fuel (the loop runs at most 21 times, 32 is enough). -/
def bezierTsGo : ℕ → ℚ → List ℚ
  | 0, _ => []
  | f + 1, t => if t ≤ 1 then t :: bezierTsGo f (t + c05) else []

/-- The list of Bezier parameters `t` actually sampled per window. -/
def bezierTs : List ℚ := bezierTsGo 32 0

/-- Model of `RRTStar::smoothPath`: unchanged below 4 waypoints; otherwise
the first waypoint, then for each 4-point window starting at index `i - 1`
for `i = 1 .. length - 3` the Bezier samples, then the last waypoint. -/
def smoothPath (path : List Point) : List Point :=
  if path.length < 4 then path
  else
    let windows := (List.range (path.length - 3)).map fun k =>
      bezierTs.map
        (computeBezierPoint (path.getD k default) (path.getD (k + 1) default)
          (path.getD (k + 2) default) (path.getD (k + 3) default))
    (path.getD 0 default) :: windows.flatten ++ [path.getLast?.getD default]

/-- A tree vertex: position, cost of the edge to its parent, and the parent
as an index into the owning tree (the source stores a non-owning pointer;
`none` for the root). -/
structure Vertex where
  x : ℚ
  y : ℚ
  cost : ℝ
  parent : Option ℕ

instance : Inhabited Vertex := ⟨⟨0, 0, 0, none⟩⟩

/-- Model of `RRTStar::calculate_distance`. -/
noncomputable def calculate_distance (x y : ℚ) (v : Vertex) : ℝ :=
  Real.sqrt (((v.x - x : ℚ) : ℝ) ^ 2 + ((v.y - y : ℚ) : ℝ) ^ 2)

/-- The loop body of `RRTStar::nearest_neighbor`: keep the closer of the
running best and vertex `i`.  The running minimum distance starts at
infinity, modelled by `none`, so the first vertex is always taken. -/
noncomputable def nearStep (t : List Vertex) (x y : ℚ)
    (acc : Option (ℕ × ℝ)) (i : ℕ) : Option (ℕ × ℝ) :=
  match acc with
  | none => some (i, calculate_distance x y (t.getD i default))
  | some (j, m) =>
    if calculate_distance x y (t.getD i default) < m then
      some (i, calculate_distance x y (t.getD i default))
    else some (j, m)

/-- Model of `RRTStar::nearest_neighbor`, returning the index of the found
vertex (the source returns a pointer into the tree). -/
noncomputable def nearest_neighbor (t : List Vertex) (x y : ℚ) : Option ℕ :=
  ((List.range t.length).foldl (nearStep t x y) none).map Prod.fst

/-- Model of `RRTStar::findVerticesInsideCircle`. -/
noncomputable def findVerticesInsideCircle (t : List Vertex) (cx cy : ℚ)
    (radius : ℝ) : List ℕ :=
  (List.range t.length).filter fun i =>
    (((t.getD i default).x - cx : ℚ) : ℝ) ^ 2 +
        (((t.getD i default).y - cy : ℚ) : ℝ) ^ 2 ≤ radius ^ 2

/-- Model of `RRTStar::calculate_cost_from_start`: sum of `cost` along the
parent chain.  Parent indices strictly decrease on well-formed trees; the
guard `j < i` makes the recursion total (it is never hit on such trees). -/
noncomputable def calculate_cost_from_start (t : List Vertex) (i : ℕ) : ℝ :=
  (t.getD i default).cost +
    match (t.getD i default).parent with
    | none => 0
    | some j => if _hj : j < i then calculate_cost_from_start t j else 0
termination_by i

/-- Model of `RRTStar::calculateBallRadius`. -/
noncomputable def calculateBallRadius (brc : ℝ) (tree_size : ℕ)
    (dimensions : ℕ) (max_connection_distance : ℝ) : ℝ :=
  let term1 := brc * Real.log tree_size / tree_size
  let term2 := term1 ^ ((1 : ℝ) / dimensions)
  min term2 max_connection_distance

/-- The free-cell count of `calculateBallRadiusConstant`: a single scan over
all grid cells. -/
def numFreeCells (cm : Costmap) : ℕ :=
  (List.range cm.sizeX).foldl
    (fun acc mx =>
      (List.range cm.sizeY).foldl
        (fun acc2 my => if cm.cost mx my = FREE_SPACE then acc2 + 1 else acc2)
        acc)
    0

/-- Model of `RRTStar::calculateBallRadiusConstant`: the RRT* constant
`2 (1 + 1/d) (freeVolume / π)^(1/d)` with `d = 2`, clamped to the goal-area
radius 10. -/
noncomputable def calculateBallRadiusConstant (cm : Costmap) : ℝ :=
  let resolution : ℝ := (cm.resolution : ℝ)
  let cellArea := resolution * resolution
  let freeVolume := cellArea * (numFreeCells cm : ℝ)
  let dimensions : ℕ := 2
  let vUnitBall := Real.pi
  let raw := 2 * (1 + 1 / (dimensions : ℝ)) *
    (freeVolume / vUnitBall) ^ ((1 : ℝ) / (dimensions : ℝ))
  min 10 raw

/-- The fixed iteration budget `max_iterations_` set in `RRTStar::configure`. -/
def maxIterations : ℕ := 1000

/-- The candidate cost examined by the rewiring scan:
`calculate_cost_from_start(tree[c]) + distance(new, tree[c])`. -/
noncomputable def rewirePot (t1 : List Vertex) (p : Point) (c : ℕ) : ℝ :=
  calculate_cost_from_start t1 c + calculate_distance p.1 p.2 (t1.getD c default)

/-- The connectivity check performed by the rewiring scan:
`connectible(*tree_.back(), *tree_[c])`. -/
def rewireOk (cm : Costmap) (res : ℚ) (t1 : List Vertex) (p : Point) (c : ℕ) : Prop :=
  connectible cm res p ((t1.getD c default).x, (t1.getD c default).y) = true

/-- One step of the rewiring scan of `createPlan` (lines 225–233): given the
running new vertex and its running total cost, consider candidate index `c`. -/
noncomputable def rewireStep (cm : Costmap) (res : ℚ) (t1 : List Vertex)
    (p : Point) (acc : Vertex × ℝ) (c : ℕ) : Vertex × ℝ :=
  if rewirePot t1 p c < acc.2 ∧ rewireOk cm res t1 p c then
    ({ acc.1 with
        cost := calculate_distance p.1 p.2 (t1.getD c default)
        parent := some c },
      rewirePot t1 p c)
  else acc

/-- The whole rewiring scan: fold `rewireStep` over the near-set indices. -/
noncomputable def rewireFold (cm : Costmap) (res : ℚ) (t1 : List Vertex)
    (p : Point) (circle : List ℕ) (init : Vertex × ℝ) : Vertex × ℝ :=
  circle.foldl (rewireStep cm res t1 p) init

/-- The tentative new vertex for sample `p` with nearest neighbour `nIdx`:
parented to the nearest vertex with the distance to it as edge cost
(lines 209–214). -/
noncomputable def newVertex (t : List Vertex) (p : Point) (nIdx : ℕ) : Vertex :=
  { x := p.1, y := p.2,
    cost := calculate_distance (t.getD nIdx default).x (t.getD nIdx default).y
      ⟨p.1, p.2, 0, none⟩,
    parent := some nIdx }

/-- One iteration body of the growth loop of `createPlan` (lines 204–237):
sample `p`, find its nearest neighbour, check connectivity (`none` means the
sample is discarded), otherwise insert the new vertex and rewire it over the
near-set computed from the pre-insertion tree.  The tree is nonempty at
every call site (it always contains the start vertex). -/
noncomputable def growStep (cm : Costmap) (res : ℚ) (brc : ℝ)
    (t : List Vertex) (p : Point) : Option (List Vertex) :=
  match nearest_neighbor t p.1 p.2 with
  | none => none
  | some nIdx =>
    if connectible cm res ((t.getD nIdx default).x, (t.getD nIdx default).y) p = true
    then
      some (t ++
        [(rewireFold cm res (t ++ [newVertex t p nIdx]) p
            (findVerticesInsideCircle t p.1 p.2 (calculateBallRadius brc t.length 2 2))
            (newVertex t p nIdx,
              calculate_cost_from_start (t ++ [newVertex t p nIdx]) t.length)).1])
    else none

/-- The growth loop of `createPlan`: the random draws are abstracted as a
list of sample points consumed in order; `i` is the loop counter, advanced
only when a sample is actually inserted (`i -= 1` on a failed check). -/
noncomputable def growLoop (cm : Costmap) (res : ℚ) (brc : ℝ) :
    List Point → ℕ → List Vertex → List Vertex × ℕ
  | [], i, t => (t, i)
  | p :: rest, i, t =>
    if i ≤ maxIterations - 1 then
      match growStep cm res brc t p with
      | some t1 => growLoop cm res brc rest (i + 1) t1
      | none => growLoop cm res brc rest i t
    else (t, i)

/-- The candidate cost examined by the goal-connection scan:
`calculate_cost_from_start(tree[idx]) + distance(goal, tree[idx])`. -/
noncomputable def goalPot (t : List Vertex) (gx gy : ℚ) (idx : ℕ) : ℝ :=
  calculate_cost_from_start t idx + calculate_distance gx gy (t.getD idx default)

/-- The connectivity check performed by the goal-connection scan:
`connectible(end_vertex, tree[idx])`. -/
def goalOk (cm : Costmap) (res : ℚ) (t : List Vertex) (gx gy : ℚ) (idx : ℕ) : Prop :=
  connectible cm res (gx, gy) ((t.getD idx default).x, (t.getD idx default).y) = true

/-- The loop body of one goal-connection scan iteration (lines 246–254):
update the running minimum (`none` models `min_cost = ∞`, so the comparison
`potential < min_cost` always succeeds on `none`). -/
noncomputable def goalStep (cm : Costmap) (res : ℚ) (t : List Vertex) (gx gy : ℚ)
    (acc : Option (ℕ × ℝ)) (idx : ℕ) : Option (ℕ × ℝ) :=
  match acc with
  | none => if goalOk cm res t gx gy idx then some (idx, goalPot t gx gy idx) else none
  | some (j, m) =>
    if goalPot t gx gy idx < m ∧ goalOk cm res t gx gy idx then
      some (idx, goalPot t gx gy idx)
    else some (j, m)

/-- One scan of the goal-connection loop of `createPlan` (lines 245–254):
fold the loop body over the near-set, keeping the cheapest candidate whose
connectivity check from the goal succeeds. -/
noncomputable def goalScan (cm : Costmap) (res : ℚ) (t : List Vertex)
    (gx gy : ℚ) (circle : List ℕ) : Option (ℕ × ℝ) :=
  circle.foldl (goalStep cm res t gx gy) none

/-- The goal vertex as inserted into the tree once candidate `j` is accepted. -/
noncomputable def mkGoalVertex (t : List Vertex) (gx gy : ℚ) (j : ℕ) : Vertex :=
  { x := gx, y := gy, cost := calculate_distance gx gy (t.getD j default),
    parent := some j }

/-- The `while (true)` goal-connection loop of `createPlan`, with explicit
fuel: each unit of fuel is one scan of the (fixed) near-set; the loop exits
only when the best verified cost is below the acceptance ceiling 10000, in
which case the goal vertex is appended to the tree. -/
noncomputable def goalLoop (cm : Costmap) (res : ℚ) (t : List Vertex)
    (gx gy : ℚ) (circle : List ℕ) : ℕ → Option (List Vertex)
  | 0 => none
  | fuel + 1 =>
    match goalScan cm res t gx gy circle with
    | some (j, m) =>
      if m < 10000 then some (t ++ [mkGoalVertex t gx gy j])
      else goalLoop cm res t gx gy circle fuel
    | none => goalLoop cm res t gx gy circle fuel

/-- The interior waypoints a back-walk iteration inserts between vertex `v`
and its parent `w`: `ceil (distance * 10) - 1` evenly spaced points, each
inserted at the front of the path, hence listed here in reverse order of
generation. -/
def densify (v w : Vertex) : List Point :=
  let steps := stepCount ((v.x - w.x) ^ 2 + (v.y - w.y) ^ 2) (1 / 10)
  (List.range (steps - 1)).map fun k =>
    (v.x + ((steps - 1 - k : ℕ) : ℚ) * ((w.x - v.x) / (steps : ℚ)),
      v.y + ((steps - 1 - k : ℕ) : ℚ) * ((w.y - v.y) / (steps : ℚ)))

/-- The goal-to-root back-walk of `createPlan` (lines 260–287), producing
waypoints in root→goal order (every pose is inserted at the front of the
path).  `fuel` bounds the number of parent links followed. -/
def backWalkIdx (t : List Vertex) : ℕ → ℕ → List Point
  | 0, i => [((t.getD i default).x, (t.getD i default).y)]
  | fuel + 1, i =>
    let v := t.getD i default
    match v.parent with
    | none => [(v.x, v.y)]
    | some j => backWalkIdx t fuel j ++ densify v (t.getD j default) ++ [(v.x, v.y)]

/-- The back-walk started from the stack vertex `end_vertex` itself. -/
def backWalkFrom (t : List Vertex) (fuel : ℕ) (v : Vertex) : List Point :=
  match v.parent with
  | none => [(v.x, v.y)]
  | some j => backWalkIdx t fuel j ++ densify v (t.getD j default) ++ [(v.x, v.y)]

/-- The raw (pre-smoothing) path of `createPlan`: the goal pose is inserted
into the empty path before growth (line 198) and every back-walk waypoint is
prepended ahead of it. -/
def rawPath (t : List Vertex) (fuel : ℕ) (endVertex : Vertex) (gx gy : ℚ) :
    List Point :=
  backWalkFrom t fuel endVertex ++ [(gx, gy)]

/-- Well-formedness of the search tree: nonempty, the first element is the
root (no parent, zero edge cost), and every later vertex has a parent of
smaller index and a nonnegative edge cost. -/
def WF (t : List Vertex) : Prop :=
  t ≠ [] ∧ (t.getD 0 default).parent = none ∧ (t.getD 0 default).cost = 0 ∧
    ∀ i, i < t.length → 0 < i →
      (∃ j, (t.getD i default).parent = some j ∧ j < i) ∧
        0 ≤ (t.getD i default).cost

/-- Follow parent links for at most `fuel` steps; `true` iff a parentless
vertex (the root) is reached within the budget. -/
def walkToRoot (t : List Vertex) : ℕ → ℕ → Bool
  | 0, i => decide ((t.getD i default).parent = none)
  | fuel + 1, i =>
    match (t.getD i default).parent with
    | none => true
    | some j => walkToRoot t fuel j

/-- Example map: 2×1 cells of size 1, all free. -/
def cmFree : Costmap := ⟨0, 0, 1, 2, 1, fun _ _ => 0⟩

/-- Example map: 2×1 cells of size 1, cell (0,0) free, cell (1,0) occupied. -/
def cmBlocked : Costmap := ⟨0, 0, 1, 2, 1, fun mx _ => if mx = 0 then 0 else 254⟩

/-- Example map: 2×2 cells of size 2, all free. -/
def cmCoarse : Costmap := ⟨0, 0, 2, 2, 2, fun _ _ => 0⟩

/-- Example map: a single occupied cell. -/
def cmOcc : Costmap := ⟨0, 0, 1, 1, 1, fun _ _ => 254⟩

/-- The start vertex as built by `createPlan` at position (0, 0). -/
def rootV : Vertex := ⟨0, 0, 0, none⟩

theorem ceilSqrt_le_iff (m k : ℕ) : ceilSqrt m ≤ k ↔ m ≤ k ^ 2 := by
  unfold ceilSqrt
  by_cases h : Nat.sqrt m * Nat.sqrt m = m
  · simp only [if_pos h]
    constructor
    · intro hk
      calc m = Nat.sqrt m * Nat.sqrt m := h.symm
        _ ≤ k * k := Nat.mul_le_mul hk hk
        _ = k ^ 2 := (sq k).symm
    · intro hk
      have h2 := Nat.sqrt_le_sqrt hk
      rwa [Nat.sqrt_eq' k] at h2
  · simp only [if_neg h]
    constructor
    · intro hk
      have h1 : m < (Nat.sqrt m + 1) ^ 2 := Nat.lt_succ_sqrt' m
      have h2 : (Nat.sqrt m + 1) ^ 2 ≤ k ^ 2 := Nat.pow_le_pow_left hk 2
      omega
    · intro hk
      by_contra hc
      have hks : k ≤ Nat.sqrt m := by omega
      have h3 : k ^ 2 ≤ Nat.sqrt m * Nat.sqrt m := by
        have := Nat.mul_le_mul hks hks
        simpa [sq] using this
      have h4 : Nat.sqrt m * Nat.sqrt m ≤ m := Nat.sqrt_le m
      omega

theorem stepCount_le_iff (sq res : ℚ) (hres : 0 < res) (k : ℕ) :
    stepCount sq res ≤ k ↔ Real.sqrt (sq : ℝ) / (res : ℝ) ≤ (k : ℝ) := by
  have hresR : (0 : ℝ) < (res : ℝ) := by exact_mod_cast hres
  unfold stepCount
  rw [if_pos hres, ceilSqrt_le_iff, Nat.ceil_le, div_le_iff₀ hresR,
    div_le_iff₀ (by positivity : (0 : ℚ) < res ^ 2)]
  rw [Real.sqrt_le_left (by positivity)]
  constructor
  · intro hq
    have : (sq : ℝ) ≤ ((k ^ 2 : ℕ) : ℝ) * ((res : ℝ)) ^ 2 := by
      exact_mod_cast hq
    calc (sq : ℝ) ≤ ((k ^ 2 : ℕ) : ℝ) * (res : ℝ) ^ 2 := this
      _ = ((k : ℝ) * (res : ℝ)) ^ 2 := by push_cast; ring
  · intro hr
    have : (sq : ℝ) ≤ ((k : ℝ) * (res : ℝ)) ^ 2 := hr
    have h2 : (sq : ℝ) ≤ ((k ^ 2 : ℕ) : ℝ) * ((res : ℝ)) ^ 2 := by
      calc (sq : ℝ) ≤ ((k : ℝ) * (res : ℝ)) ^ 2 := this
        _ = ((k ^ 2 : ℕ) : ℝ) * (res : ℝ) ^ 2 := by push_cast; ring
    exact_mod_cast h2

theorem stepCount_eq_ceil (sq res : ℚ) (hres : 0 < res) :
    stepCount sq res = ⌈Real.sqrt (sq : ℝ) / (res : ℝ)⌉₊ := by
  apply le_antisymm
  · rw [stepCount_le_iff sq res hres]
    exact Nat.le_ceil _
  · rw [Nat.ceil_le, ← stepCount_le_iff sq res hres]

theorem stepCount_zero_of_sq_zero (res : ℚ) : stepCount 0 res = 0 := by
  unfold stepCount
  by_cases h : 0 < res
  · rw [if_pos h]
    norm_num [ceilSqrt]
  · rw [if_neg h]

theorem stepCount_pos (sq res : ℚ) (hres : 0 < res) (hsq : 0 < sq) :
    0 < stepCount sq res := by
  by_contra hc
  have h0 : stepCount sq res ≤ 0 := by omega
  rw [stepCount_le_iff sq res hres 0] at h0
  have h1 : (0 : ℝ) < Real.sqrt (sq : ℝ) := Real.sqrt_pos.2 (by exact_mod_cast hsq)
  have h2 : (0 : ℝ) < Real.sqrt (sq : ℝ) / (res : ℝ) :=
    div_pos h1 (by exact_mod_cast hres)
  simp only [Nat.cast_zero] at h0
  linarith

theorem connectibleGo_iff (cm : Costmap) (xinc yinc : ℚ) :
    ∀ (k : ℕ) (x y : ℚ),
      connectibleGo cm xinc yinc k x y = true ↔
        ∀ i < k, sampleFree cm (x + i * xinc, y + i * yinc) := by
  intro k
  induction k with
  | zero => intro x y; simp [connectibleGo]
  | succ k ih =>
    intro x y
    rw [connectibleGo]
    rcases hw : worldToMap cm x y with _ | ⟨mx, my⟩
    · simp only [Bool.false_eq_true, false_iff]
      intro hall
      rcases hall 0 (Nat.succ_pos k) with ⟨mx, my, hmap, _⟩
      simp only [Nat.cast_zero, zero_mul, add_zero] at hmap
      rw [hw] at hmap
      exact Option.noConfusion hmap
    · by_cases hc : cm.cost mx my ≠ FREE_SPACE
      · simp only [if_pos hc, Bool.false_eq_true, false_iff]
        intro hall
        rcases hall 0 (Nat.succ_pos k) with ⟨mx2, my2, hmap, hfree⟩
        simp only [Nat.cast_zero, zero_mul, add_zero] at hmap
        rw [hw] at hmap
        obtain ⟨rfl, rfl⟩ : mx2 = mx ∧ my2 = my := by
          injection hmap with h2; injection h2 with h3 h4; exact ⟨h3.symm, h4.symm⟩
        exact hc hfree
      · push_neg at hc
        simp only [hc, ne_eq, not_true_eq_false, if_false, ih]
        constructor
        · intro hall i hi
          rcases Nat.eq_zero_or_pos i with rfl | hip
          · exact ⟨mx, my, by simpa using hw, hc⟩
          · obtain ⟨i, rfl⟩ : ∃ i2, i = i2 + 1 := ⟨i - 1, by omega⟩
            have h1 := hall i (by omega)
            have hx : x + (((i + 1 : ℕ)) : ℚ) * xinc = x + xinc + (i : ℚ) * xinc := by
              push_cast; ring
            have hy : y + (((i + 1 : ℕ)) : ℚ) * yinc = y + yinc + (i : ℚ) * yinc := by
              push_cast; ring
            rw [hx, hy]
            exact h1
        · intro hall i hi
          have h1 := hall (i + 1) (by omega)
          have hx : x + (((i + 1 : ℕ)) : ℚ) * xinc = x + xinc + (i : ℚ) * xinc := by
            push_cast; ring
          have hy : y + (((i + 1 : ℕ)) : ℚ) * yinc = y + yinc + (i : ℚ) * yinc := by
            push_cast; ring
          rw [hx, hy] at h1
          exact h1

theorem connectible_iff_all_samples (cm : Costmap) (res : ℚ) (s e : Point) :
    connectible cm res s e = true ↔
      ∀ i < stepCount ((e.1 - s.1) ^ 2 + (e.2 - s.2) ^ 2) res,
        sampleFree cm
          (samplePoint s e (stepCount ((e.1 - s.1) ^ 2 + (e.2 - s.2) ^ 2) res) i) := by
  unfold connectible samplePoint
  by_cases h : 0 < stepCount ((e.1 - s.1) ^ 2 + (e.2 - s.2) ^ 2) res
  · rw [if_pos h, connectibleGo_iff]
  · rw [if_neg h]
    simp only [true_iff]
    intro i hi
    omega

theorem connectible_self (cm : Costmap) (res : ℚ) (A : Point) :
    connectible cm res A A = true := by
  unfold connectible
  have h : stepCount ((A.1 - A.1) ^ 2 + (A.2 - A.2) ^ 2) res = 0 := by
    simpa using stepCount_zero_of_sq_zero res
  rw [h]
  simp

/-- C5: `connectible` returns true iff every point sampled along the segment,
discretized into `ceil(distance / interpolation_resolution)` steps, maps to a
valid grid cell that is free space; a zero-step segment is trivially
connectible, and `connectible A A` always holds. -/
theorem claim_C5_connectible_spec (cm : Costmap) (res : ℚ) (s e : Point)
    (hres : 0 < res) :
    (connectible cm res s e = true ↔
      ∀ i < stepCount ((e.1 - s.1) ^ 2 + (e.2 - s.2) ^ 2) res,
        sampleFree cm
          (samplePoint s e (stepCount ((e.1 - s.1) ^ 2 + (e.2 - s.2) ^ 2) res) i)) ∧
    stepCount ((e.1 - s.1) ^ 2 + (e.2 - s.2) ^ 2) res =
      ⌈Real.sqrt (((e.1 - s.1) ^ 2 + (e.2 - s.2) ^ 2 : ℚ) : ℝ) / (res : ℝ)⌉₊ ∧
    (stepCount ((e.1 - s.1) ^ 2 + (e.2 - s.2) ^ 2) res = 0 →
      connectible cm res s e = true) ∧
    connectible cm res s s = true := by
  refine ⟨connectible_iff_all_samples cm res s e,
    stepCount_eq_ceil _ _ hres, ?_, connectible_self cm res s⟩
  intro h0
  rw [connectible_iff_all_samples]
  intro i hi
  rw [h0] at hi
  omega

/-- Witness for C5 at a concrete map, resolution and segment. -/
theorem claim_C5_connectible_spec_witness :
    (0 : ℚ) < 1 ∧ connectible cmFree 1 ((0 : ℚ), (0 : ℚ)) ((0 : ℚ), (0 : ℚ)) = true :=
  ⟨by norm_num,
    (claim_C5_connectible_spec cmFree 1 ((0 : ℚ), (0 : ℚ)) ((0 : ℚ), (0 : ℚ))
        (by norm_num)).2.2.2⟩

/-- C4: the connection radius at tree size `n` is
`min (sqrt (ball_radius_constant * ln n / n)) max_connection_distance` with
`max_connection_distance = 2`, hence never exceeds 2. -/
theorem claim_C4_connection_radius (c : ℝ) (n : ℕ) :
    calculateBallRadius c n 2 2 = min (Real.sqrt (c * Real.log n / n)) 2 ∧
    calculateBallRadius c n 2 2 ≤ 2 := by
  have h : calculateBallRadius c n 2 2 = min (Real.sqrt (c * Real.log n / n)) 2 := by
    unfold calculateBallRadius
    rw [Real.sqrt_eq_rpow]
    norm_num
  exact ⟨h, h ▸ min_le_right _ _⟩

/-- C8: the ball-radius constant is `2 (1 + 1/2) sqrt(freeVolume / π)` with
`freeVolume = cellArea * numFreeCells`, clamped to at most 10; a grid with no
free cell yields the constant 0. -/
theorem claim_C8_ball_radius_constant (cm : Costmap) :
    calculateBallRadiusConstant cm =
      min 10 (2 * (1 + 1 / 2) *
        Real.sqrt ((cm.resolution : ℝ) * (cm.resolution : ℝ) * (numFreeCells cm : ℝ) /
          Real.pi)) ∧
    calculateBallRadiusConstant cm ≤ 10 ∧
    (numFreeCells cm = 0 → calculateBallRadiusConstant cm = 0) := by
  have h : calculateBallRadiusConstant cm =
      min 10 (2 * (1 + 1 / 2) *
        Real.sqrt ((cm.resolution : ℝ) * (cm.resolution : ℝ) * (numFreeCells cm : ℝ) /
          Real.pi)) := by
    unfold calculateBallRadiusConstant
    rw [Real.sqrt_eq_rpow]
    norm_num
  refine ⟨h, h ▸ min_le_left _ _, fun h0 => ?_⟩
  rw [h, h0]
  simp

/-- Witness for C8: a grid with a single occupied cell has no free cells and
a zero ball-radius constant. -/
theorem claim_C8_ball_radius_constant_witness :
    numFreeCells cmOcc = 0 ∧ calculateBallRadiusConstant cmOcc = 0 := by
  have h0 : numFreeCells cmOcc = 0 := by
    norm_num [numFreeCells, cmOcc, FREE_SPACE, List.range_succ]
  exact ⟨h0, (claim_C8_ball_radius_constant cmOcc).2.2 h0⟩

/-- C9 is false as stated: for `A = (0,0)`, `B = (1,0)` on a map with cell
size 2, `A ≠ B`, yet the very first sample lies in the same (valid) cell as
`B`, so the cell containing `B` is checked. -/
theorem claim_C9_counterexample :
    (((0 : ℚ), (0 : ℚ)) : Point) ≠ ((1 : ℚ), (0 : ℚ)) ∧
    0 < stepCount (((1 : ℚ) - 0) ^ 2 + ((0 : ℚ) - 0) ^ 2) 1 ∧
    worldToMap cmCoarse
        (samplePoint ((0 : ℚ), (0 : ℚ)) ((1 : ℚ), (0 : ℚ))
          (stepCount (((1 : ℚ) - 0) ^ 2 + ((0 : ℚ) - 0) ^ 2) 1) 0).1
        (samplePoint ((0 : ℚ), (0 : ℚ)) ((1 : ℚ), (0 : ℚ))
          (stepCount (((1 : ℚ) - 0) ^ 2 + ((0 : ℚ) - 0) ^ 2) 1) 0).2 =
      worldToMap cmCoarse 1 0 ∧
    (worldToMap cmCoarse 1 0).isSome = true := by
  have hsc : stepCount (((1 : ℚ) - 0) ^ 2 + ((0 : ℚ) - 0) ^ 2) 1 = 1 := by
    norm_num [stepCount, ceilSqrt]
  refine ⟨by norm_num [Prod.ext_iff], by omega, ?_, ?_⟩
  · rw [hsc]
    norm_num [samplePoint, worldToMap, cmCoarse]
  · norm_num [worldToMap, cmCoarse]

/-- C9 (amended): the sampling loop of `connectible` never visits the
endpoint `B` itself when `A ≠ B`; consequently a segment can be reported
connectible although `B` lies in an occupied cell, and `connectible` is not
symmetric. -/
theorem claim_C9_endpoint_never_sampled :
    (∀ (s e : Point) (res : ℚ), 0 < res → s ≠ e →
      ∀ i < stepCount ((e.1 - s.1) ^ 2 + (e.2 - s.2) ^ 2) res,
        samplePoint s e (stepCount ((e.1 - s.1) ^ 2 + (e.2 - s.2) ^ 2) res) i ≠ e) ∧
    connectible cmBlocked 1 ((0 : ℚ), (0 : ℚ)) ((1 : ℚ), (0 : ℚ)) = true ∧
    ¬ sampleFree cmBlocked ((1 : ℚ), (0 : ℚ)) ∧
    connectible cmBlocked 1 ((1 : ℚ), (0 : ℚ)) ((0 : ℚ), (0 : ℚ)) = false := by
  refine ⟨?_, ?_, ?_, ?_⟩
  · intro s e res hres hne i hi heq
    set n := stepCount ((e.1 - s.1) ^ 2 + (e.2 - s.2) ^ 2) res with hn
    have hdxy : e.1 - s.1 ≠ 0 ∨ e.2 - s.2 ≠ 0 := by
      by_contra hc
      push_neg at hc
      exact hne (Prod.ext (by linarith [hc.1]) (by linarith [hc.2]))
    have hsq : 0 < (e.1 - s.1) ^ 2 + (e.2 - s.2) ^ 2 := by
      rcases hdxy with h | h
      · have h1 : 0 < (e.1 - s.1) ^ 2 := by positivity
        nlinarith [sq_nonneg (e.2 - s.2)]
      · have h1 : 0 < (e.2 - s.2) ^ 2 := by positivity
        nlinarith [sq_nonneg (e.1 - s.1)]
    have hnpos : 0 < n := stepCount_pos _ _ hres hsq
    have hx : s.1 + (i : ℚ) * ((e.1 - s.1) / (n : ℚ)) = e.1 := congrArg Prod.fst heq
    have hy : s.2 + (i : ℚ) * ((e.2 - s.2) / (n : ℚ)) = e.2 := congrArg Prod.snd heq
    have hnne : (n : ℚ) ≠ 0 := by positivity
    have hix : (e.1 - s.1) * ((n : ℚ) - i) = 0 := by
      field_simp at hx
      linarith [hx]
    have hiy : (e.2 - s.2) * ((n : ℚ) - i) = 0 := by
      field_simp at hy
      linarith [hy]
    have hne2 : ((n : ℚ) - i) ≠ 0 := by
      have : (i : ℚ) < (n : ℚ) := by exact_mod_cast hi
      intro hz
      have : (n : ℚ) = i := by linarith
      linarith
    rcases hdxy with h | h
    · exact h (by rcases mul_eq_zero.1 hix with h1 | h1 <;> [exact h1; exact absurd h1 hne2])
    · exact h (by rcases mul_eq_zero.1 hiy with h1 | h1 <;> [exact h1; exact absurd h1 hne2])
  · have hsc : stepCount 1 1 = 1 := by
      norm_num [stepCount, ceilSqrt]
    rw [connectible]
    norm_num [hsc, connectibleGo, worldToMap, cmBlocked, FREE_SPACE]
  · rintro ⟨mx, my, hmap, hfree⟩
    rw [worldToMap] at hmap
    norm_num [cmBlocked] at hmap
    rw [← hmap.1, ← hmap.2] at hfree
    norm_num [cmBlocked, FREE_SPACE] at hfree
  · have hsc : stepCount 1 1 = 1 := by
      norm_num [stepCount, ceilSqrt]
    rw [connectible]
    norm_num [hsc, connectibleGo, worldToMap, cmBlocked, FREE_SPACE]

theorem bezierTs_length : bezierTs.length = 20 := by
  norm_num [bezierTs, bezierTsGo, c05]

/-- C1 (code evaluation): the smoother is a no-op below 4 waypoints, but the
floating-point loop `for (double t = 0; t <= 1.0; t += 0.05)` emits only 20
parameter samples per window — twenty accumulated steps of the binary64 value
of `0.05` already exceed 1, so `t = 1` is never sampled — hence a 4-waypoint
input yields `1 + 20 + 1 = 22` output points, not the `21 + 2 = 23` points
(21 samples per window, endpoints included) that the claim states. -/
theorem claim_C1_smoothPath_eval :
    smoothPath [((0 : ℚ), (0 : ℚ)), (1, 0), (2, 0)] =
      [((0 : ℚ), (0 : ℚ)), (1, 0), (2, 0)] ∧
    bezierTs.length = 20 ∧
    (smoothPath [((0 : ℚ), (0 : ℚ)), (1, 0), (2, 0), (3, 0)]).length = 22 := by
  refine ⟨by norm_num [smoothPath], bezierTs_length, ?_⟩
  rw [smoothPath]
  norm_num [List.length_flatten, bezierTs_length, List.range_succ, List.range_zero,
    Function.comp, List.length_map]

/-- Witness for the amended C9 at a concrete segment and resolution. -/
theorem claim_C9_endpoint_never_sampled_witness :
    (0 : ℚ) < 1 ∧ (((0 : ℚ), (0 : ℚ)) : Point) ≠ ((1 : ℚ), (0 : ℚ)) ∧
    samplePoint ((0 : ℚ), (0 : ℚ)) ((1 : ℚ), (0 : ℚ))
        (stepCount (((1 : ℚ) - 0) ^ 2 + ((0 : ℚ) - 0) ^ 2) 1) 0 ≠ ((1 : ℚ), (0 : ℚ)) := by
  have hne : (((0 : ℚ), (0 : ℚ)) : Point) ≠ ((1 : ℚ), (0 : ℚ)) := by
    norm_num [Prod.ext_iff]
  have hsc : 0 < stepCount (((1 : ℚ) - 0) ^ 2 + ((0 : ℚ) - 0) ^ 2) 1 := by
    norm_num [stepCount, ceilSqrt]
  exact ⟨by norm_num, hne,
    claim_C9_endpoint_never_sampled.1 ((0 : ℚ), (0 : ℚ)) ((1 : ℚ), (0 : ℚ)) 1
      (by norm_num) hne 0 hsc⟩

/-- C10: in every successful plan the raw (pre-smoothing) path ends with the
goal position twice in a row: the back-walk emits the goal vertex first (so
its pose stays right before the goal pose that was inserted into the empty
path before growth), and that initial goal pose remains the final element. -/
theorem claim_C10_goal_pose_duplicated (t : List Vertex) (fuel : ℕ)
    (gx gy : ℚ) (c : ℝ) (pj : Option ℕ) :
    ∃ l, rawPath t fuel ⟨gx, gy, c, pj⟩ gx gy = l ++ [(gx, gy), (gx, gy)] ∧
      (rawPath t fuel ⟨gx, gy, c, pj⟩ gx gy).getLast? = some (gx, gy) := by
  cases pj with
  | none =>
    refine ⟨[], ?_, ?_⟩ <;> simp [rawPath, backWalkFrom]
  | some j =>
    refine ⟨backWalkIdx t fuel j ++ densify ⟨gx, gy, c, some j⟩ (t.getD j default),
      ?_, ?_⟩ <;> simp [rawPath, backWalkFrom]

section GoalScanLemmas

variable (cm : Costmap) (res : ℚ) (t : List Vertex) (gx gy : ℚ)

theorem goalScan_eq_fold (circle : List ℕ) :
    goalScan cm res t gx gy circle = circle.foldl (goalStep cm res t gx gy) none :=
  rfl

theorem goalStep_some (j : ℕ) (m : ℝ) (c : ℕ) :
    goalStep cm res t gx gy (some (j, m)) c =
      if goalPot t gx gy c < m ∧ goalOk cm res t gx gy c then
        some (c, goalPot t gx gy c)
      else some (j, m) :=
  rfl

theorem goalStep_none (c : ℕ) :
    goalStep cm res t gx gy none c =
      if goalOk cm res t gx gy c then some (c, goalPot t gx gy c) else none :=
  rfl

theorem goalStep_fold_some (circle : List ℕ) :
    ∀ jm, circle.foldl (goalStep cm res t gx gy) (some jm) ≠ none := by
  induction circle with
  | nil => intro jm h; exact Option.noConfusion h
  | cons c rest ih =>
    intro jm
    rw [List.foldl_cons]
    rcases jm with ⟨j, m⟩
    rw [goalStep_some]
    by_cases h : goalPot t gx gy c < m ∧ goalOk cm res t gx gy c
    · rw [if_pos h]; exact ih _
    · rw [if_neg h]; exact ih _

theorem goalStep_fold_mono (circle : List ℕ) :
    ∀ j0 m0 j m,
      circle.foldl (goalStep cm res t gx gy) (some (j0, m0)) = some (j, m) →
      m ≤ m0 := by
  induction circle with
  | nil =>
    intro j0 m0 j m h
    simp only [List.foldl_nil, Option.some.injEq, Prod.mk.injEq] at h
    exact le_of_eq h.2.symm
  | cons c rest ih =>
    intro j0 m0 j m h
    rw [List.foldl_cons, goalStep_some] at h
    by_cases hc : goalPot t gx gy c < m0 ∧ goalOk cm res t gx gy c
    · rw [if_pos hc] at h
      exact (ih _ _ _ _ h).trans hc.1.le
    · rw [if_neg hc] at h
      exact ih _ _ _ _ h

theorem goalStep_fold_none (circle : List ℕ) :
    circle.foldl (goalStep cm res t gx gy) none = none →
    ∀ c ∈ circle, ¬ goalOk cm res t gx gy c := by
  induction circle with
  | nil => intro _ c hc; exact absurd hc (List.not_mem_nil c)
  | cons c rest ih =>
    intro h d hd
    rw [List.foldl_cons, goalStep_none] at h
    by_cases hc : goalOk cm res t gx gy c
    · exfalso
      rw [if_pos hc] at h
      exact goalStep_fold_some cm res t gx gy rest _ h
    · rcases List.mem_cons.1 hd with rfl | hd2
      · exact hc
      · apply ih _ _ hd2
        rwa [if_neg hc] at h

theorem goalStep_fold_le (circle : List ℕ) :
    ∀ acc j m,
      circle.foldl (goalStep cm res t gx gy) acc = some (j, m) →
      ∀ c ∈ circle, goalOk cm res t gx gy c → m ≤ goalPot t gx gy c := by
  induction circle with
  | nil => intro acc j m _ c hc; exact absurd hc (List.not_mem_nil c)
  | cons c rest ih =>
    intro acc j m h d hd hok
    rw [List.foldl_cons] at h
    rcases List.mem_cons.1 hd with rfl | hd2
    · rcases acc with _ | ⟨j0, m0⟩
      · rw [goalStep_none, if_pos hok] at h
        exact goalStep_fold_mono cm res t gx gy rest _ _ _ _ h
      · rw [goalStep_some] at h
        by_cases hc : goalPot t gx gy d < m0 ∧ goalOk cm res t gx gy d
        · rw [if_pos hc] at h
          exact goalStep_fold_mono cm res t gx gy rest _ _ _ _ h
        · rw [if_neg hc] at h
          have hm0 : m0 ≤ goalPot t gx gy d := by
            by_contra hlt
            exact hc ⟨lt_of_not_le hlt, hok⟩
          exact (goalStep_fold_mono cm res t gx gy rest _ _ _ _ h).trans hm0
    · exact ih _ _ _ h d hd2 hok

theorem goalStep_fold_shape (circle : List ℕ) :
    ∀ acc,
      (acc = none ∨ ∃ j, acc = some (j, goalPot t gx gy j) ∧ goalOk cm res t gx gy j) →
      (circle.foldl (goalStep cm res t gx gy) acc = none ∨
        ∃ j, circle.foldl (goalStep cm res t gx gy) acc =
            some (j, goalPot t gx gy j) ∧ goalOk cm res t gx gy j) := by
  induction circle with
  | nil => intro acc hacc; simpa using hacc
  | cons c rest ih =>
    intro acc hacc
    rw [List.foldl_cons]
    apply ih
    rcases hacc with rfl | ⟨j, rfl, hok⟩
    · by_cases hc : goalOk cm res t gx gy c
      · exact Or.inr ⟨c, by rw [goalStep_none, if_pos hc], hc⟩
      · exact Or.inl (by rw [goalStep_none, if_neg hc])
    · by_cases hc : goalPot t gx gy c < goalPot t gx gy j ∧ goalOk cm res t gx gy c
      · exact Or.inr ⟨c, by rw [goalStep_some, if_pos hc], hc.2⟩
      · exact Or.inr ⟨j, by rw [goalStep_some, if_neg hc], hok⟩

/-- The scan result is the minimum verified candidate cost: if the scan finds
`(j, m)` then `j` passed the connectivity check, `m` is its cost, and `m` is
at most the cost of every verified candidate; if it finds nothing, no
candidate passed the check. -/
theorem goalScan_spec (circle : List ℕ) :
    (goalScan cm res t gx gy circle = none →
      ∀ c ∈ circle, ¬ goalOk cm res t gx gy c) ∧
    ∀ j m, goalScan cm res t gx gy circle = some (j, m) →
      goalOk cm res t gx gy j ∧ m = goalPot t gx gy j ∧
        ∀ c ∈ circle, goalOk cm res t gx gy c → m ≤ goalPot t gx gy c := by
  rw [goalScan_eq_fold]
  refine ⟨goalStep_fold_none cm res t gx gy circle, fun j m h => ?_⟩
  rcases goalStep_fold_shape cm res t gx gy circle none (Or.inl rfl) with h0 | ⟨j2, h2, hok⟩
  · rw [h] at h0; exact Option.noConfusion h0
  · rw [h] at h2
    obtain ⟨rfl, rfl⟩ : j = j2 ∧ m = goalPot t gx gy j2 := by
      have := h2
      simp only [Option.some.injEq, Prod.mk.injEq] at this
      exact ⟨this.1, this.2⟩
    exact ⟨hok, rfl, goalStep_fold_le cm res t gx gy circle none j _ h⟩

end GoalScanLemmas

theorem calculate_cost_from_start_of_parent_none (t : List Vertex) (i : ℕ)
    (h : (t.getD i default).parent = none) :
    calculate_cost_from_start t i = (t.getD i default).cost := by
  rw [calculate_cost_from_start, h]
  simp

theorem calculate_cost_from_start_of_parent_some (t : List Vertex) (i j : ℕ)
    (h : (t.getD i default).parent = some j) (hj : j < i) :
    calculate_cost_from_start t i =
      (t.getD i default).cost + calculate_cost_from_start t j := by
  rw [calculate_cost_from_start, h]
  simp [hj]

/-- C2: the goal connector stops on the first scan whose best verified
connection cost is below the acceptance ceiling 10000, appending the goal
vertex to the tree; the scan result is the minimum over the verified
candidates of the fixed near-set; and if the scan never produces a cost
below the ceiling, the loop returns nothing for every fuel bound (the
`while (true)` loop never terminates). -/
theorem claim_C2_goal_connector (cm : Costmap) (res : ℚ) (t : List Vertex)
    (gx gy : ℚ) (circle : List ℕ) :
    (∀ j m, goalScan cm res t gx gy circle = some (j, m) → m < 10000 →
      (∀ fuel, goalLoop cm res t gx gy circle (fuel + 1) =
        some (t ++ [mkGoalVertex t gx gy j])) ∧
      goalOk cm res t gx gy j ∧ m = goalPot t gx gy j ∧
        ∀ c ∈ circle, goalOk cm res t gx gy c → m ≤ goalPot t gx gy c) ∧
    ((∀ j m, goalScan cm res t gx gy circle = some (j, m) → ¬ m < 10000) →
      ∀ fuel, goalLoop cm res t gx gy circle fuel = none) := by
  constructor
  · intro j m hscan hm
    refine ⟨fun fuel => ?_, (goalScan_spec cm res t gx gy circle).2 j m hscan⟩
    simp only [goalLoop, hscan, if_pos hm]
  · intro hge fuel
    induction fuel with
    | zero => rfl
    | succ fuel ih =>
      rcases h : goalScan cm res t gx gy circle with _ | ⟨j, m⟩
      · simp only [goalLoop, h]
        exact ih
      · simp only [goalLoop, h, if_neg (hge j m h)]
        exact ih

/-- Witness for C2: with the tree consisting of the start vertex at the goal
position, the scan verifies candidate 0 at cost 0 and the loop accepts on
its first scan, appending the goal vertex. -/
theorem claim_C2_goal_connector_witness :
    goalScan cmFree 1 [rootV] 0 0 [0] = some (0, goalPot [rootV] 0 0 0) ∧
    goalPot [rootV] 0 0 0 < 10000 ∧
    goalLoop cmFree 1 [rootV] 0 0 [0] 1 = some ([rootV] ++ [mkGoalVertex [rootV] 0 0 0]) := by
  have hok : goalOk cmFree 1 [rootV] 0 0 0 := by
    unfold goalOk
    simp only [List.getD_cons_zero, rootV]
    exact connectible_self cmFree 1 (0, 0)
  have hscan : goalScan cmFree 1 [rootV] 0 0 [0] = some (0, goalPot [rootV] 0 0 0) := by
    rw [goalScan_eq_fold]
    simp only [List.foldl_cons, List.foldl_nil, goalStep_none, if_pos hok]
  have hpot : goalPot [rootV] 0 0 0 = 0 := by
    unfold goalPot
    rw [calculate_cost_from_start_of_parent_none [rootV] 0 (by simp [rootV])]
    simp [rootV, calculate_distance]
  have hm : goalPot [rootV] 0 0 0 < 10000 := by
    rw [hpot]; norm_num
  exact ⟨hscan, hm,
    ((claim_C2_goal_connector cmFree 1 [rootV] 0 0 [0]).1 0 _ hscan hm).1 0⟩

theorem calculate_distance_nonneg (x y : ℚ) (v : Vertex) :
    0 ≤ calculate_distance x y v :=
  Real.sqrt_nonneg _

theorem getD_append_lt (t l : List Vertex) (i : ℕ) (h : i < t.length) :
    (t ++ l).getD i default = t.getD i default := by
  simp [List.getD_eq_getElem?_getD, List.getElem?_append_left h]

theorem getD_append_len (t : List Vertex) (v : Vertex) :
    (t ++ [v]).getD t.length default = v := by
  simp [List.getD_eq_getElem?_getD, List.getElem?_append_right (le_refl t.length)]

theorem calculate_cost_from_start_append (t l : List Vertex) :
    ∀ k, k < t.length →
      calculate_cost_from_start (t ++ l) k = calculate_cost_from_start t k := by
  intro k
  induction k using Nat.strong_induction_on with
  | _ k ih =>
    intro hk
    rw [calculate_cost_from_start, calculate_cost_from_start, getD_append_lt t l k hk]
    rcases hp : (t.getD k default).parent with _ | j
    · rfl
    · by_cases hj : j < k
      · simp only [dif_pos hj]
        rw [ih j hj (lt_trans hj hk)]
      · simp only [dif_neg hj]

theorem rewireStep_snd_le (cm : Costmap) (res : ℚ) (t1 : List Vertex) (p : Point)
    (acc : Vertex × ℝ) (c : ℕ) :
    (rewireStep cm res t1 p acc c).2 ≤ acc.2 := by
  unfold rewireStep
  by_cases h : rewirePot t1 p c < acc.2 ∧ rewireOk cm res t1 p c
  · rw [if_pos h]; exact h.1.le
  · rw [if_neg h]

theorem rewireFold_snd_mono (cm : Costmap) (res : ℚ) (t1 : List Vertex) (p : Point)
    (l : List ℕ) :
    ∀ acc : Vertex × ℝ, (rewireFold cm res t1 p l acc).2 ≤ acc.2 := by
  induction l with
  | nil => intro acc; exact le_refl _
  | cons c rest ih =>
    intro acc
    unfold rewireFold at ih ⊢
    rw [List.foldl_cons]
    exact (ih _).trans (rewireStep_snd_le cm res t1 p acc c)

theorem rewireFold_le (cm : Costmap) (res : ℚ) (t1 : List Vertex) (p : Point)
    (l : List ℕ) :
    ∀ (acc : Vertex × ℝ) (c : ℕ), c ∈ l → rewireOk cm res t1 p c →
      (rewireFold cm res t1 p l acc).2 ≤ rewirePot t1 p c := by
  induction l with
  | nil => intro acc c hc; exact absurd hc (List.not_mem_nil c)
  | cons d rest ih =>
    intro acc c hc hok
    unfold rewireFold at ih ⊢
    rw [List.foldl_cons]
    rcases List.mem_cons.1 hc with rfl | hc2
    · have h1 : (rewireStep cm res t1 p acc c).2 ≤ rewirePot t1 p c := by
        unfold rewireStep
        by_cases h : rewirePot t1 p c < acc.2 ∧ rewireOk cm res t1 p c
        · rw [if_pos h]
        · rw [if_neg h]
          exact le_of_not_lt fun hlt => h ⟨hlt, hok⟩
      exact (rewireFold_snd_mono cm res t1 p rest _).trans h1
    · exact ih _ c hc2 hok

theorem rewireFold_inv (cm : Costmap) (res : ℚ) (t1 : List Vertex) (p : Point)
    (n : ℕ) (l : List ℕ) :
    (∀ c ∈ l, c < n) →
    ∀ acc : Vertex × ℝ,
      (acc.1.x = p.1 ∧ acc.1.y = p.2 ∧ 0 ≤ acc.1.cost ∧
        ∃ k, acc.1.parent = some k ∧ k < n ∧
          acc.2 = calculate_cost_from_start t1 k + acc.1.cost) →
      (rewireFold cm res t1 p l acc).1.x = p.1 ∧
        (rewireFold cm res t1 p l acc).1.y = p.2 ∧
        0 ≤ (rewireFold cm res t1 p l acc).1.cost ∧
        ∃ k, (rewireFold cm res t1 p l acc).1.parent = some k ∧ k < n ∧
          (rewireFold cm res t1 p l acc).2 =
            calculate_cost_from_start t1 k + (rewireFold cm res t1 p l acc).1.cost := by
  induction l with
  | nil => intro _ acc h; exact h
  | cons c rest ih =>
    intro hl acc h
    unfold rewireFold at ih ⊢
    rw [List.foldl_cons]
    apply ih (fun d hd => hl d (List.mem_cons_of_mem c hd))
    unfold rewireStep
    by_cases hc : rewirePot t1 p c < acc.2 ∧ rewireOk cm res t1 p c
    · rw [if_pos hc]
      refine ⟨h.1, h.2.1, calculate_distance_nonneg _ _ _, c, rfl,
        hl c (List.mem_cons_self c rest), ?_⟩
      unfold rewirePot
      ring
    · rw [if_neg hc]
      exact h

theorem findVerticesInsideCircle_mem_lt (t : List Vertex) (cx cy : ℚ) (r : ℝ) :
    ∀ c ∈ findVerticesInsideCircle t cx cy r, c < t.length := by
  intro c hc
  unfold findVerticesInsideCircle at hc
  exact List.mem_range.1 (List.mem_of_mem_filter hc)

theorem nearStep_none_eq (t : List Vertex) (x y : ℚ) (i : ℕ) :
    nearStep t x y none i = some (i, calculate_distance x y (t.getD i default)) :=
  rfl

theorem nearStep_some_eq (t : List Vertex) (x y : ℚ) (j : ℕ) (m : ℝ) (i : ℕ) :
    nearStep t x y (some (j, m)) i =
      if calculate_distance x y (t.getD i default) < m then
        some (i, calculate_distance x y (t.getD i default))
      else some (j, m) :=
  rfl

theorem nearStep_fold_bound (t : List Vertex) (x y : ℚ) (l : List ℕ) (bound : ℕ)
    (hl : ∀ i ∈ l, i < bound) :
    ∀ acc : Option (ℕ × ℝ),
      (acc = none ∨ ∃ jd, acc = some jd ∧ jd.1 < bound) →
      (l.foldl (nearStep t x y) acc = none ∨
        ∃ jd, l.foldl (nearStep t x y) acc = some jd ∧ jd.1 < bound) := by
  induction l with
  | nil => intro acc h; simpa using h
  | cons c rest ih =>
    intro acc h
    rw [List.foldl_cons]
    apply ih (fun i hi => hl i (List.mem_cons_of_mem c hi))
    have hcb : c < bound := hl c (List.mem_cons_self c rest)
    rcases h with rfl | ⟨⟨j, m⟩, rfl, hj⟩
    · exact Or.inr ⟨(c, calculate_distance x y (t.getD c default)), rfl, hcb⟩
    · by_cases hd : calculate_distance x y (t.getD c default) < m
      · exact Or.inr ⟨_, by rw [nearStep_some_eq, if_pos hd], hcb⟩
      · exact Or.inr ⟨_, by rw [nearStep_some_eq, if_neg hd], hj⟩

theorem nearest_neighbor_lt (t : List Vertex) (x y : ℚ) (j : ℕ)
    (h : nearest_neighbor t x y = some j) : j < t.length := by
  unfold nearest_neighbor at h
  rcases nearStep_fold_bound t x y (List.range t.length) t.length
      (fun i hi => List.mem_range.1 hi) none (Or.inl rfl) with h0 | ⟨⟨j2, m⟩, h2, hj⟩
  · rw [h0] at h
    exact Option.noConfusion h
  · rw [h2] at h
    simp only [Option.map] at h
    injection h with h3
    rw [← h3]
    exact hj

/-- Structure of a successful growth step: the tree is extended by exactly
one vertex, placed at the sample position, with nonnegative edge cost and a
parent among the pre-existing vertices; its total cost is at most the total
through its nearest neighbour and at most the total through every verified
near-set candidate. -/
theorem growStep_spec (cm : Costmap) (res : ℚ) (brc : ℝ)
    (t : List Vertex) (p : Point) (t' : List Vertex)
    (h : growStep cm res brc t p = some t') :
    (∃ v, t' = t ++ [v] ∧ v.x = p.1 ∧ v.y = p.2 ∧ 0 ≤ v.cost ∧
      ∃ k, v.parent = some k ∧ k < t.length) ∧
    (∃ nIdx, nearest_neighbor t p.1 p.2 = some nIdx ∧
      calculate_cost_from_start t' t.length ≤
        calculate_cost_from_start (t ++ [newVertex t p nIdx]) t.length) ∧
    ∀ c ∈ findVerticesInsideCircle t p.1 p.2 (calculateBallRadius brc t.length 2 2),
      connectible cm res p ((t.getD c default).x, (t.getD c default).y) = true →
      calculate_cost_from_start t' t.length ≤
        calculate_cost_from_start t c + calculate_distance p.1 p.2 (t.getD c default) := by
  rcases hn : nearest_neighbor t p.1 p.2 with _ | nIdx
  · simp only [growStep, hn] at h
    exact Option.noConfusion h
  · by_cases hconn :
      connectible cm res ((t.getD nIdx default).x, (t.getD nIdx default).y) p = true
    · simp only [growStep, hn, if_pos hconn] at h
      obtain rfl := (Option.some.inj h).symm
      set n := t.length with hn_def
      set v0 := newVertex t p nIdx with hv0
      set t1 := t ++ [v0] with ht1
      set circle := findVerticesInsideCircle t p.1 p.2 (calculateBallRadius brc n 2 2)
        with hcircdef
      set r := rewireFold cm res t1 p circle (v0, calculate_cost_from_start t1 n)
        with hr
      have hnIdx : nIdx < n := nearest_neighbor_lt t p.1 p.2 nIdx hn
      have hcirc : ∀ c ∈ circle, c < n := findVerticesInsideCircle_mem_lt t p.1 p.2 _
      have hget1 : t1.getD n default = v0 := getD_append_len t v0
      have hccfs1 : calculate_cost_from_start t1 n =
          calculate_cost_from_start t1 nIdx + v0.cost := by
        rw [calculate_cost_from_start_of_parent_some t1 n nIdx
          (by rw [hget1]; rfl) hnIdx, hget1]
        ring
      have hinv := rewireFold_inv cm res t1 p n circle hcirc
        (v0, calculate_cost_from_start t1 n)
        ⟨rfl, rfl, calculate_distance_nonneg _ _ _, nIdx, rfl, hnIdx, by
          simpa using hccfs1⟩
      obtain ⟨hx, hy, hcost, k, hk, hkn, hval⟩ := hinv
      rw [← hr] at hx hy hcost hk hval
      have hget' : (t ++ [r.1]).getD n default = r.1 := getD_append_len t r.1
      have hccfs' : calculate_cost_from_start (t ++ [r.1]) n = r.2 := by
        rw [calculate_cost_from_start_of_parent_some (t ++ [r.1]) n k
          (by rw [hget']; exact hk) hkn, hget', hval,
          calculate_cost_from_start_append t [r.1] k hkn,
          calculate_cost_from_start_append t [v0] k hkn]
        ring
      refine ⟨⟨r.1, rfl, hx, hy, hcost, k, hk, hkn⟩,
        ⟨nIdx, rfl, ?_⟩, fun c hc hconn2 => ?_⟩
      · rw [hccfs']
        exact rewireFold_snd_mono cm res t1 p circle _
      · have hcn : c < n := hcirc c hc
        have hok : rewireOk cm res t1 p c := by
          unfold rewireOk
          rw [getD_append_lt t [v0] c hcn]
          exact hconn2
        have hle := rewireFold_le cm res t1 p circle
          (v0, calculate_cost_from_start t1 n) c hc hok
        rw [hccfs']
        refine hle.trans (le_of_eq ?_)
        unfold rewirePot
        rw [calculate_cost_from_start_append t [v0] c hcn, getD_append_lt t [v0] c hcn]
    · simp only [growStep, hn, if_neg hconn] at h
      exact Option.noConfusion h

/-- C3: an insertion's rewiring step mutates only the newly inserted vertex:
the result is the old tree with exactly one vertex appended, so the parent
link and edge cost of every previously inserted vertex are unchanged; the
new vertex sits at the sample position, is re-parented among the existing
vertices, and its total cost is at most the total through its nearest
neighbour and at most the total through every verified near-set candidate
(the cheapest verified connection wins). -/
theorem claim_C3_rewire_mutates_only_new (cm : Costmap) (res : ℚ) (brc : ℝ)
    (t : List Vertex) (p : Point) (t' : List Vertex)
    (h : growStep cm res brc t p = some t') :
    (∀ i, i < t.length → t'.getD i default = t.getD i default) ∧
    t'.length = t.length + 1 ∧
    (t'.getD t.length default).x = p.1 ∧
    (t'.getD t.length default).y = p.2 ∧
    (∃ k, (t'.getD t.length default).parent = some k ∧ k < t.length) ∧
    (∃ nIdx, nearest_neighbor t p.1 p.2 = some nIdx ∧
      calculate_cost_from_start t' t.length ≤
        calculate_cost_from_start (t ++ [newVertex t p nIdx]) t.length) ∧
    ∀ c ∈ findVerticesInsideCircle t p.1 p.2 (calculateBallRadius brc t.length 2 2),
      connectible cm res p ((t.getD c default).x, (t.getD c default).y) = true →
      calculate_cost_from_start t' t.length ≤
        calculate_cost_from_start t c + calculate_distance p.1 p.2 (t.getD c default) := by
  obtain ⟨⟨v, rfl, hx, hy, hcost, k, hk, hkn⟩, hinit, hopt⟩ :=
    growStep_spec cm res brc t p t' h
  refine ⟨fun i hi => getD_append_lt t [v] i hi, by simp,
    by rw [getD_append_len]; exact hx, by rw [getD_append_len]; exact hy,
    ⟨k, by rw [getD_append_len]; exact hk, hkn⟩, hinit, hopt⟩

/-- Witness for C3: inserting the sample `(0,0)` into the single-root tree
leaves the root entry unchanged. -/
theorem claim_C3_rewire_mutates_only_new_witness :
    ∃ t', growStep cmFree 1 0 [rootV] ((0 : ℚ), (0 : ℚ)) = some t' ∧
      t'.getD 0 default = rootV ∧ t'.length = 2 := by
  rcases hg : growStep cmFree 1 0 [rootV] ((0 : ℚ), (0 : ℚ)) with _ | t'
  · exfalso
    have hnear : nearest_neighbor [rootV] 0 0 = some 0 := by
      unfold nearest_neighbor
      simp [List.range_succ, nearStep_none_eq]
    have hconn : connectible cmFree 1
        (([rootV].getD 0 default).x, ([rootV].getD 0 default).y) ((0 : ℚ), (0 : ℚ)) = true := by
      simp only [List.getD_cons_zero, rootV]
      exact connectible_self cmFree 1 (0, 0)
    simp only [growStep, hnear, if_pos hconn] at hg
    exact Option.noConfusion hg
  · have hframe := claim_C3_rewire_mutates_only_new cmFree 1 0 [rootV]
      ((0 : ℚ), (0 : ℚ)) t' hg
    exact ⟨t', rfl, by
      have := hframe.1 0 (by simp)
      simpa using this, by simpa using hframe.2.1⟩

theorem walkToRoot_of_lt_fuel (t : List Vertex) (hwf : WF t) :
    ∀ i, i < t.length → ∀ fuel, i < fuel → walkToRoot t fuel i = true := by
  intro i
  induction i using Nat.strong_induction_on with
  | _ i ih =>
    intro hi fuel hfuel
    obtain ⟨f, rfl⟩ : ∃ f, fuel = f + 1 := ⟨fuel - 1, by omega⟩
    rcases hp : (t.getD i default).parent with _ | j
    · simp only [walkToRoot, hp]
    · simp only [walkToRoot, hp]
      rcases Nat.eq_zero_or_pos i with rfl | hip
      · rw [hwf.2.1] at hp
        exact Option.noConfusion hp
      · obtain ⟨⟨j2, hj2, hj2lt⟩, _⟩ := hwf.2.2.2 i hi hip
        rw [hp] at hj2
        have hjj : j = j2 := Option.some.inj hj2
        subst hjj
        exact ih j hj2lt (lt_trans hj2lt hi) f (by omega)

theorem WF_growStep (cm : Costmap) (res : ℚ) (brc : ℝ) (t : List Vertex)
    (p : Point) (t' : List Vertex) (hwf : WF t)
    (h : growStep cm res brc t p = some t') :
    WF t' ∧ t'.getD 0 default = t.getD 0 default ∧ ∃ v, t' = t ++ [v] := by
  obtain ⟨⟨v, rfl, _, _, hcost, k, hk, hkn⟩, _, _⟩ := growStep_spec cm res brc t p t' h
  obtain ⟨hne, hrp, hrc, hrest⟩ := hwf
  have hlen : 0 < t.length := List.length_pos.2 hne
  have hget0 : (t ++ [v]).getD 0 default = t.getD 0 default := getD_append_lt t [v] 0 hlen
  refine ⟨⟨by simp, by rw [hget0]; exact hrp, by rw [hget0]; exact hrc, ?_⟩, hget0,
    v, rfl⟩
  intro i hi hip
  rcases Nat.lt_or_ge i t.length with hit | hit
  · rw [getD_append_lt t [v] i hit]
    exact hrest i hit hip
  · have hieq : i = t.length := by
      simp only [List.length_append, List.length_cons, List.length_nil] at hi
      omega
    subst hieq
    rw [getD_append_len t v]
    exact ⟨⟨k, hk, hkn⟩, hcost⟩

theorem WF_growLoop (cm : Costmap) (res : ℚ) (brc : ℝ) :
    ∀ (samples : List Point) (i : ℕ) (t : List Vertex), WF t →
      WF (growLoop cm res brc samples i t).1 ∧
        (growLoop cm res brc samples i t).1.getD 0 default = t.getD 0 default := by
  intro samples
  induction samples with
  | nil =>
    intro i t hwf
    simp only [growLoop]
    exact ⟨hwf, trivial⟩
  | cons p rest ih =>
    intro i t hwf
    by_cases hb : i ≤ maxIterations - 1
    · rcases hg : growStep cm res brc t p with _ | t1
      · simp only [growLoop, if_pos hb, hg]
        exact ih i t hwf
      · simp only [growLoop, if_pos hb, hg]
        obtain ⟨hwf1, hget1, _⟩ := WF_growStep cm res brc t p t1 hwf hg
        obtain ⟨hwf2, hget2⟩ := ih (i + 1) t1 hwf1
        exact ⟨hwf2, by rw [hget2, hget1]⟩
    · simp only [growLoop, if_neg hb]
      exact ⟨hwf, trivial⟩

/-- C6: the search-tree invariant — first element is the start vertex with
zero edge cost and no parent, vertices are only appended, every later vertex
has nonnegative edge cost and a parent of strictly smaller index — is
preserved by every insertion (rewiring included) and by the whole growth
loop, and under it every vertex's parent chain reaches the root within
`tree_size` steps. -/
theorem claim_C6_tree_invariant (cm : Costmap) (res : ℚ) (brc : ℝ) :
    (∀ (t : List Vertex) (p : Point) (t' : List Vertex), WF t →
      growStep cm res brc t p = some t' →
      WF t' ∧ t'.getD 0 default = t.getD 0 default ∧ ∃ v, t' = t ++ [v]) ∧
    (∀ (samples : List Point) (i : ℕ) (t : List Vertex), WF t →
      WF (growLoop cm res brc samples i t).1 ∧
        (growLoop cm res brc samples i t).1.getD 0 default = t.getD 0 default) ∧
    ∀ t : List Vertex, WF t → ∀ i, i < t.length → walkToRoot t t.length i = true := by
  exact ⟨fun t p t' hwf h => WF_growStep cm res brc t p t' hwf h,
    WF_growLoop cm res brc,
    fun t hwf i hi => walkToRoot_of_lt_fuel t hwf i hi t.length hi⟩

/-- Witness for C6: the single-root tree is well-formed, the invariant holds
after inserting the sample `(0,0)`, and the root's parent chain terminates
immediately. -/
theorem claim_C6_tree_invariant_witness :
    WF [rootV] ∧
    (∀ t', growStep cmFree 1 0 [rootV] ((0 : ℚ), (0 : ℚ)) = some t' → WF t') ∧
    walkToRoot [rootV] 1 0 = true := by
  have hwf : WF [rootV] := by
    refine ⟨by simp, by simp [rootV], by simp [rootV], ?_⟩
    intro i hi hip
    simp only [List.length_cons, List.length_nil] at hi
    omega
  refine ⟨hwf, fun t' ht' =>
    ((claim_C6_tree_invariant cmFree 1 0).1 [rootV] ((0 : ℚ), (0 : ℚ)) t' hwf ht').1, ?_⟩
  have h := (claim_C6_tree_invariant cmFree 1 0).2.2 [rootV] hwf 0 (by simp)
  simpa using h

theorem growLoop_count (cm : Costmap) (res : ℚ) (brc : ℝ) :
    ∀ (samples : List Point) (i : ℕ) (t : List Vertex),
      (growLoop cm res brc samples i t).1.length + i =
        t.length + (growLoop cm res brc samples i t).2 ∧
      i ≤ (growLoop cm res brc samples i t).2 := by
  intro samples
  induction samples with
  | nil =>
    intro i t
    exact ⟨rfl, le_refl i⟩
  | cons p rest ih =>
    intro i t
    by_cases hb : i ≤ maxIterations - 1
    · rcases hg : growStep cm res brc t p with _ | t1
      · simp only [growLoop, if_pos hb, hg]
        exact ih i t
      · simp only [growLoop, if_pos hb, hg]
        obtain ⟨⟨v, rfl, _⟩, _, _⟩ := growStep_spec cm res brc t p t1 hg
        have hlen : (t ++ [v]).length = t.length + 1 := by simp
        obtain ⟨h1, h2⟩ := ih (i + 1) (t ++ [v])
        constructor
        · omega
        · omega
    · simp only [growLoop, if_neg hb]
      exact ⟨trivial, le_refl i⟩

theorem growLoop_counter_cap (cm : Costmap) (res : ℚ) (brc : ℝ) :
    ∀ (samples : List Point) (i : ℕ) (t : List Vertex), i ≤ maxIterations →
      (growLoop cm res brc samples i t).2 ≤ maxIterations := by
  intro samples
  induction samples with
  | nil =>
    intro i t hi
    simpa only [growLoop] using hi
  | cons p rest ih =>
    intro i t hi
    have hm : maxIterations = 1000 := rfl
    by_cases hb : i ≤ maxIterations - 1
    · rcases hg : growStep cm res brc t p with _ | t1
      · simp only [growLoop, if_pos hb, hg]
        exact ih i t hi
      · simp only [growLoop, if_pos hb, hg]
        refine ih (i + 1) t1 ?_
        rw [hm] at hb ⊢
        omega
    · simp only [growLoop, if_neg hb]
      exact hi

/-- C7: growth runs on a budget of `max_iterations = 1000` slots (root
included): the tree grows by exactly the number of consumed counter slots, a
sample whose connectivity check fails is discarded without consuming a slot
(the loop counter and the tree are unchanged), the counter never exceeds the
budget, and from the start configuration (counter 1, tree = root) the tree
size always equals the counter and never exceeds 1000. -/
theorem claim_C7_iteration_budget (cm : Costmap) (res : ℚ) (brc : ℝ) :
    maxIterations = 1000 ∧
    (∀ (samples : List Point) (i : ℕ) (t : List Vertex),
      (growLoop cm res brc samples i t).1.length + i =
        t.length + (growLoop cm res brc samples i t).2) ∧
    (∀ (samples : List Point) (i : ℕ) (t : List Vertex), i ≤ maxIterations →
      (growLoop cm res brc samples i t).2 ≤ maxIterations) ∧
    (∀ (p : Point) (rest : List Point) (i : ℕ) (t : List Vertex),
      i ≤ maxIterations - 1 → growStep cm res brc t p = none →
      growLoop cm res brc (p :: rest) i t = growLoop cm res brc rest i t) ∧
    ∀ (samples : List Point) (root : Vertex),
      (growLoop cm res brc samples 1 [root]).1.length =
        (growLoop cm res brc samples 1 [root]).2 ∧
      (growLoop cm res brc samples 1 [root]).1.length ≤ maxIterations := by
  refine ⟨rfl, fun samples i t => (growLoop_count cm res brc samples i t).1,
    growLoop_counter_cap cm res brc, fun p rest i t hb hg => ?_, fun samples root => ?_⟩
  · simp only [growLoop, if_pos hb, hg]
  · have h1 := (growLoop_count cm res brc samples 1 [root]).1
    have h2 := growLoop_counter_cap cm res brc samples 1 [root]
      (by rw [show maxIterations = 1000 from rfl]; omega)
    simp only [List.length_cons, List.length_nil] at h1
    omega

/-- Witness for C7 at a concrete map, sample stream and tree. -/
theorem claim_C7_iteration_budget_witness :
    ((growLoop cmFree 1 0 [((0 : ℚ), (0 : ℚ))] 1 [rootV]).1.length + 1 =
      1 + (growLoop cmFree 1 0 [((0 : ℚ), (0 : ℚ))] 1 [rootV]).2) ∧
    (growLoop cmFree 1 0 [((0 : ℚ), (0 : ℚ))] 1 [rootV]).2 ≤ maxIterations ∧
    growLoop cmFree 1 0 [((0 : ℚ), (0 : ℚ))] 5 [] =
      growLoop cmFree 1 0 [] 5 [] ∧
    (growLoop cmFree 1 0 [((0 : ℚ), (0 : ℚ))] 1 [rootV]).1.length =
      (growLoop cmFree 1 0 [((0 : ℚ), (0 : ℚ))] 1 [rootV]).2 := by
  obtain ⟨h1000, hEq, hCap, hDiscard, hRoot⟩ := claim_C7_iteration_budget cmFree 1 0
  refine ⟨hEq [((0 : ℚ), (0 : ℚ))] 1 [rootV], hCap _ 1 [rootV] (by rw [h1000]; omega),
    hDiscard ((0 : ℚ), (0 : ℚ)) [] 5 [] (by rw [h1000]; norm_num) rfl,
    (hRoot [((0 : ℚ), (0 : ℚ))] rootV).1⟩

end RRTStar
